import Mathlib

/-!
Verification development for the blitzdrill PGN-to-move-tree core
(`src/lib/chess.ts` and the drill logic of `src/App.vue`).

The move tree is embedded as an arena: a list of nodes addressed by
position, with `parent` / `children` stored as indices, mirroring the
mutable object graph of the TypeScript source.  The chess.js dependency
(the "move-evaluation collaborator" of the spec) is abstracted as a
`ChessApi` structure; a concrete finite instance `demoApi` encodes the
standard-chess transitions exercised by the concrete test inputs.
-/

/-- Move descriptor, the fields of a chess.js `Move` value that the
program consumes: short algebraic notation, long-form notation used for
equality comparisons, and origin/destination squares. -/
structure MoveD where
  san : String
  lan : String
  src : String
  dst : String
deriving DecidableEq, Repr

/-- `MoveNode` from `src/lib/chess.ts`, with `children` and `parent`
as arena indices instead of object references. -/
structure Node where
  id : String
  move : Option MoveD
  san : String
  fen : String
  children : List Nat
  parent : Option Nat
  isMainLine : Bool
deriving DecidableEq, Repr

/-- The whole tree: an arena of nodes; index 0 is the root produced by
`parsePgnToTree`. -/
abbrev Arena := List Node

/-- Default node used for out-of-range arena reads (never hit on the
indices the program actually follows). -/
def nodeDefault : Node := ⟨"", none, "", "", [], none, false⟩

/-- Read the node stored at index `i`. -/
def getN (a : Arena) (i : Nat) : Node := (a[i]?).getD nodeDefault

/-- The move-evaluation collaborator (chess.js).  `moveSan` is
`game.move(tokenString)`, `moveObj` is `game.move(moveObject)`,
`moveCoord` is `game.move({from, to, promotion: 'q'})`; each returns
the move descriptor and/or the resulting FEN, or `none` for an illegal
or unparseable move.  `move_coh` records chess.js's contract that
re-applying a returned move object reproduces the same position. -/
structure ChessApi where
  startFen : String
  moveSan : String → String → Option (MoveD × String)
  moveObj : String → MoveD → Option String
  moveCoord : String → String → String → Option (MoveD × String)
  move_coh : ∀ fen tok m fen2, moveSan fen tok = some (m, fen2) → moveObj fen m = some fen2

/-! ### The `cleanPgn` pre-pass

`parsePgnToTree` first cleans the raw PGN text with five regex
replacements.  Each global regex replace is embedded as a one-pass
character automaton. -/

/-- State of the comment-stripping automaton for `/\{[\s\S]*?\}/g`:
either outside a comment, or inside one, buffering the consumed text in
case no closing brace ever arrives (in which case the regex has no
match and the text stays). -/
inductive CcState where
  | plain
  | inside (buf : List Char)

/-- One step of the comment-stripping automaton. -/
def ccStep : CcState → Char → List Char × CcState
  | .plain, c => if c = '{' then ([], .inside [c]) else ([c], .plain)
  | .inside buf, c => if c = '}' then ([], .plain) else ([], .inside (buf ++ [c]))

/-- Leftover output when the input ends. -/
def ccFinish : CcState → List Char
  | .plain => []
  | .inside buf => buf

/-- Run the comment-stripping automaton. -/
def ccRun : CcState → List Char → List Char
  | st, [] => ccFinish st
  | st, c :: cs => (ccStep st c).1 ++ ccRun (ccStep st c).2 cs

/-- `.replace(/\{[\s\S]*?\}/g, '')` — remove `{...}` comments. -/
def remComments (cs : List Char) : List Char := ccRun .plain cs

/-- State of the NAG-stripping automaton for `/\$\d+/g`: plain text,
just saw `$`, or inside the digit run of a NAG. -/
inductive NagState where
  | plain
  | sawDollar
  | inDigits

/-- One step of the NAG-stripping automaton. -/
def nagStep : NagState → Char → List Char × NagState
  | .plain, c => if c = '$' then ([], .sawDollar) else ([c], .plain)
  | .sawDollar, c =>
    if c.isDigit then ([], .inDigits)
    else if c = '$' then (['$'], .sawDollar)
    else (['$', c], .plain)
  | .inDigits, c =>
    if c.isDigit then ([], .inDigits)
    else if c = '$' then ([], .sawDollar)
    else ([c], .plain)

/-- Leftover output when the input ends. -/
def nagFinish : NagState → List Char
  | .plain => []
  | .sawDollar => ['$']
  | .inDigits => []

/-- Run the NAG-stripping automaton. -/
def nagRun : NagState → List Char → List Char
  | st, [] => nagFinish st
  | st, c :: cs => (nagStep st c).1 ++ nagRun (nagStep st c).2 cs

/-- `.replace(/\$\d+/g, '')` — remove numeric annotation glyphs. -/
def remNags (cs : List Char) : List Char := nagRun .plain cs

/-- State of the move-number automaton for `/\d+\.+/g → ' '`: plain
text, inside a digit run (buffered, re-emitted if no dot follows), or
inside the dot run after digits. -/
inductive MnState where
  | plain
  | digits (acc : List Char)
  | dots

/-- One step of the move-number automaton. -/
def mnStep : MnState → Char → List Char × MnState
  | .plain, c => if c.isDigit then ([], .digits [c]) else ([c], .plain)
  | .digits acc, c =>
    if c.isDigit then ([], .digits (acc ++ [c]))
    else if c = '.' then ([], .dots)
    else (acc ++ [c], .plain)
  | .dots, c =>
    if c = '.' then ([], .dots)
    else if c.isDigit then ([' '], .digits [c])
    else ([' ', c], .plain)

/-- Leftover output when the input ends. -/
def mnFinish : MnState → List Char
  | .plain => []
  | .digits acc => acc
  | .dots => [' ']

/-- Run the move-number automaton. -/
def mnRun : MnState → List Char → List Char
  | st, [] => mnFinish st
  | st, c :: cs => (mnStep st c).1 ++ mnRun (mnStep st c).2 cs

/-- `.replace(/\d+\.+/g, ' ')` — replace move-number prefixes by a
space. -/
def remMoveNums (cs : List Char) : List Char := mnRun .plain cs

/-- JavaScript `\s` for the characters that occur in PGN text. -/
def isWsChar (c : Char) : Bool := c = ' ' || c = '\t' || c = '\n' || c = '\r'

/-- State of the whitespace-collapsing automaton for `/\s+/g → ' '`. -/
inductive WsState where
  | plain
  | inWs

/-- One step of the whitespace-collapsing automaton. -/
def wsStep : WsState → Char → List Char × WsState
  | .plain, c => if isWsChar c then ([], .inWs) else ([c], .plain)
  | .inWs, c => if isWsChar c then ([], .inWs) else ([' ', c], .plain)

/-- Leftover output when the input ends. -/
def wsFinish : WsState → List Char
  | .plain => []
  | .inWs => [' ']

/-- Run the whitespace-collapsing automaton. -/
def wsRun : WsState → List Char → List Char
  | st, [] => wsFinish st
  | st, c :: cs => (wsStep st c).1 ++ wsRun (wsStep st c).2 cs

/-- `.replace(/\s+/g, ' ')` — collapse whitespace runs to one space. -/
def collapseWs (cs : List Char) : List Char := wsRun .plain cs

/-- `.replace(/1-0|0-1|1\/2-1\/2|\*/g, '')` — remove game-result
markers, trying the alternatives in regex order at each position. -/
def remResults : List Char → List Char
  | '1' :: '-' :: '0' :: cs => remResults cs
  | '0' :: '-' :: '1' :: cs => remResults cs
  | '1' :: '/' :: '2' :: '-' :: '1' :: '/' :: '2' :: cs => remResults cs
  | '*' :: cs => remResults cs
  | c :: cs => c :: remResults cs
  | [] => []

/-- `.trim()` — drop leading and trailing whitespace. -/
def trimChars (cs : List Char) : List Char :=
  ((cs.dropWhile (fun c => isWsChar c)).reverse.dropWhile (fun c => isWsChar c)).reverse

/-- The cleaning pipeline of `parsePgnToTree`, in source order. -/
def cleanPgn (s : String) : String :=
  String.mk (trimChars (remResults (collapseWs (remMoveNums (remNags (remComments s.toList))))))

/-! ### Tokenizer (`tokenize` in `src/lib/chess.ts`) -/

/-- The tokenizer loop: `cur` is the `current` buffer of the source.
`'('`, `')'` and `' '` flush the buffer; parens are emitted as their
own tokens; other characters extend the buffer. -/
def tokAux : List Char → List Char → List (List Char)
  | [], cur => if cur = [] then [] else [cur]
  | c :: cs, cur =>
    if c = '(' || c = ')' || c = ' ' then
      (if cur = [] then [] else [cur]) ++ (if c = ' ' then [] else [[c]]) ++ tokAux cs []
    else tokAux cs (cur ++ [c])

/-- `tokenize` — split cleaned PGN text into move tokens and paren
markers. -/
def tokenize (s : String) : List String := (tokAux s.toList []).map String.mk

/-! ### Tree builder (`buildTree` in `src/lib/chess.ts`) -/

/-- The scan for the matching close paren: starting just after a `"("`
with nesting `depth`, consume tokens, adjusting depth on parens, until
depth hits zero or the input ends.  Returns the consumed tokens and the
remainder (the position `j` of the source).  The source's variation
slice `tokens.slice(i + 1, j - 1)` is the consumed list minus its last
element. -/
def scanVar : List String → Nat → List String × List String
  | [], _ => ([], [])
  | t :: ts, depth =>
    let d2 := if t = "(" then depth + 1 else if t = ")" then depth - 1 else depth
    if d2 = 0 then ([t], ts)
    else
      let pr := scanVar ts d2
      (t :: pr.1, pr.2)

/-- `currentParent.children.push(node)`: record index `idx` as a new
last child of node `p`. -/
def appendChild (a : Arena) (p idx : Nat) : Arena :=
  a.set p { getN a p with children := (getN a p).children ++ [idx] }

/-- `buildTree` — consume tokens, attaching successful moves below the
current attachment point `cp`, recursing into variations at the parent
of the most recently attached move.  `fen` is the live evaluator state
(equal to the attachment point's position), `k` is the position in the
id stream `ids`, and `fuel` bounds the recursion (the call sites pass
more fuel than tokens, so the fuel-exhaustion branch is never taken).
Returns the extended arena and the next id-stream position. -/
def buildTree (api : ChessApi) (ids : Nat → String) :
    Nat → List String → Arena → Nat → String → Bool → Nat → Arena × Nat
  | 0, _, a, _, _, _, k => (a, k)
  | _ + 1, [], a, _, _, _, k => (a, k)
  | fuel + 1, t :: ts, a, cp, fen, ml, k =>
    if t = "(" then
      let pr := scanVar ts 1
      let varToks := pr.1.dropLast
      let rest := pr.2
      match (getN a cp).parent with
      | none => buildTree api ids fuel rest a cp fen ml k
      | some bp =>
        let r := buildTree api ids fuel varToks a bp ((getN a bp).fen) false k
        buildTree api ids fuel rest r.1 cp fen ml r.2
    else if t = ")" then (a, k)
    else if t = "" then buildTree api ids fuel ts a cp fen ml k
    else
      match api.moveSan fen t with
      | none => buildTree api ids fuel ts a cp fen ml k
      | some (m, fen2) =>
        let idx := a.length
        let node : Node := ⟨ids k, some m, m.san, fen2, [], some cp, ml⟩
        buildTree api ids fuel ts (appendChild a cp idx ++ [node]) idx fen2 ml (k + 1)

/-- The synthetic root node created by `parsePgnToTree`. -/
def rootNode (api : ChessApi) : Node := ⟨"root", none, "", api.startFen, [], none, true⟩

/-- `parsePgnToTree` — clean the PGN text, tokenize it, and build the
tree from a fresh root.  `ids`/`k` model the stream of values produced
by successive `generateId()` calls; the returned counter is where the
stream stands after this parse. -/
def parsePgnToTree (api : ChessApi) (ids : Nat → String) (k : Nat) (pgn : String) : Arena × Nat :=
  let cleaned := cleanPgn pgn
  if cleaned = "" then ([rootNode api], k)
  else
    let toks := tokenize cleaned
    buildTree api ids (toks.length + 1) toks [rootNode api] 0 api.startFen true k

/-! ### Tree query utilities -/

/-- Worklist form of `getLeafNodes`'s recursion
(`node.children.flatMap(getLeafNodes)`): leaves of each listed subtree
in order.  Fuel decreases on every step; the wrapper passes enough for
any tree arena. -/
def leavesFrom (a : Arena) : Nat → List Nat → List Nat
  | 0, _ => []
  | _ + 1, [] => []
  | fuel + 1, i :: rest =>
    (if (getN a i).children = [] then [i] else leavesFrom a fuel (getN a i).children) ++
      leavesFrom a fuel rest

/-- `getLeafNodes` applied to the root: every childless node reachable
from index 0, in depth-first order over children in stored order. -/
def getLeafNodes (a : Arena) : List Nat :=
  leavesFrom a (a.length * (a.length + 1) + 1) [0]

/-- The line reconstruction inside `getAllLines`: from a leaf, follow
`parent` links while the current node exists and carries a move,
prepending each node. -/
def lineO (a : Arena) : Nat → Nat → List Nat
  | 0, _ => []
  | f + 1, i =>
    match (getN a i).move with
    | none => []
    | some _ =>
      match (getN a i).parent with
      | none => [i]
      | some p => lineO a f p ++ [i]

/-- `getAllLines` — one line per leaf, in leaf-enumeration order. -/
def getAllLines (a : Arena) : List (List Nat) :=
  (getLeafNodes a).map (lineO a a.length)

/-- The loop of `findNextUnplayedLine`: return the first line whose
last node exists, has a truthy (non-empty) id, and whose id is not in
the completed set. -/
def fnulGo (a : Arena) (completed : List String) : List (List Nat) → Option (List Nat)
  | [] => none
  | line :: rest =>
    match line.getLast? with
    | none => fnulGo a completed rest
    | some l =>
      if (getN a l).id ≠ "" ∧ ¬ completed.contains (getN a l).id then some line
      else fnulGo a completed rest

/-- `findNextUnplayedLine` — first line (in `getAllLines` order) whose
terminal leaf is not yet completed, else `none`. -/
def findNextUnplayedLine (a : Arena) (completed : List String) : Option (List Nat) :=
  fnulGo a completed (getAllLines a)

/-- Modelled from the spec (§4.4 Line Selector), for comparison with
`findNextUnplayedLine`: the first leaf, in leaf-enumeration order,
that carries a move (the root does not, so a root leaf is immediately
exhausted) and whose identity is not in the completed set; its line is
returned, or the sentinel `none` when every leaf is completed. -/
def specNextUnplayedLine (a : Arena) (completed : List String) : Option (List Nat) :=
  ((getLeafNodes a).find? fun l =>
      (getN a l).move.isSome && ! completed.contains (getN a l).id).map (lineO a a.length)

/-- `getPathToNode`'s loop: follow `parent` links from the node up to
the root, prepending each visited node. -/
def pathToAux (a : Arena) : Nat → Nat → List Nat
  | 0, _ => []
  | f + 1, i =>
    match (getN a i).parent with
    | none => [i]
    | some p => pathToAux a f p ++ [i]

/-- `getPathToNode` — root-first path ending at the node. -/
def getPathToNode (a : Arena) (i : Nat) : List Nat := pathToAux a a.length i

/-- Depth of a node: number of `parent` links to the root. -/
def depthA (a : Arena) : Nat → Nat → Nat
  | 0, _ => 0
  | f + 1, i =>
    match (getN a i).parent with
    | none => 0
    | some p => depthA a f p + 1

/-- Depth of a node with adequate fuel. -/
def depthOf (a : Arena) (i : Nat) : Nat := depthA a a.length i

/-- One step of re-applying a path (the loop of `navigateToNode` in
`src/App.vue`: `if (n.move) game.move(n.move)`). -/
def replayStep (api : ChessApi) (a : Arena) (ofen : Option String) (i : Nat) : Option String :=
  match ofen with
  | none => none
  | some fen =>
    match (getN a i).move with
    | none => some fen
    | some m => api.moveObj fen m

/-- Re-apply every node's move along a path starting from the initial
position. -/
def replayPath (api : ChessApi) (a : Arena) (path : List Nat) : Option String :=
  path.foldl (replayStep api a) (some api.startFen)

/-! ### A concrete move-evaluation collaborator

A finite table of standard-chess transitions covering the moves used by
the concrete test inputs of the spec (`e4`, `e5`, `d4`, `d5`, `Nf3`,
plus `a3` as a legal move recorded in no study line). -/

/-- Starting-position FEN. -/
def fen0 : String := "rnbqkbnr/pppppppp/8/8/8/8/PPPPPPPP/RNBQKBNR w KQkq - 0 1"

/-- FEN after 1. e4. -/
def fenE4 : String := "rnbqkbnr/pppppppp/8/8/4P3/8/PPPP1PPP/RNBQKBNR b KQkq e3 0 1"

/-- FEN after 1. e4 e5. -/
def fenE4E5 : String := "rnbqkbnr/pppp1ppp/8/4p3/4P3/8/PPPP1PPP/RNBQKBNR w KQkq e6 0 2"

/-- FEN after 1. e4 e5 2. Nf3. -/
def fenNf3 : String := "rnbqkbnr/pppp1ppp/8/4p3/4P3/5N2/PPPP1PPP/RNBQKB1R b KQkq - 1 2"

/-- FEN after 1. d4. -/
def fenD4 : String := "rnbqkbnr/pppppppp/8/8/3P4/8/PPP1PPPP/RNBQKBNR b KQkq d3 0 1"

/-- FEN after 1. d4 d5. -/
def fenD4D5 : String := "rnbqkbnr/ppp1pppp/8/3p4/3P4/8/PPP1PPPP/RNBQKBNR w KQkq d6 0 2"

/-- FEN after 1. a3. -/
def fenA3 : String := "rnbqkbnr/pppppppp/8/8/8/P7/1PPPPPPP/RNBQKBNR b KQkq - 0 1"

/-- Move descriptors for the table. -/
def mvE4 : MoveD := ⟨"e4", "e2e4", "e2", "e4"⟩

/-- 1... e5. -/
def mvE5 : MoveD := ⟨"e5", "e7e5", "e7", "e5"⟩

/-- 1. d4. -/
def mvD4 : MoveD := ⟨"d4", "d2d4", "d2", "d4"⟩

/-- 1... d5. -/
def mvD5 : MoveD := ⟨"d5", "d7d5", "d7", "d5"⟩

/-- 2. Nf3. -/
def mvNf3 : MoveD := ⟨"Nf3", "g1f3", "g1", "f3"⟩

/-- 1. a3. -/
def mvA3 : MoveD := ⟨"a3", "a2a3", "a2", "a3"⟩

/-- Legal-move table: (position, SAN token, move descriptor, resulting
position). -/
def demoMoves : List (String × String × MoveD × String) :=
  [ (fen0, "e4", mvE4, fenE4),
    (fen0, "d4", mvD4, fenD4),
    (fen0, "a3", mvA3, fenA3),
    (fenE4, "e5", mvE5, fenE4E5),
    (fenD4, "d5", mvD5, fenD4D5),
    (fenE4E5, "Nf3", mvNf3, fenNf3) ]

/-- Apply a SAN token at a position via the table. -/
def demoMoveSan (fen tok : String) : Option (MoveD × String) :=
  (demoMoves.find? fun e => e.1 = fen && e.2.1 = tok).map fun e => (e.2.2.1, e.2.2.2)

/-- Apply a move descriptor at a position (re-playing a recorded
move). -/
def demoMoveObj (fen : String) (m : MoveD) : Option String :=
  match demoMoveSan fen m.san with
  | some (m2, f2) => if m2 = m then some f2 else none
  | none => none

/-- Apply a move given as origin/destination squares. -/
def demoMoveCoord (fen o d : String) : Option (MoveD × String) :=
  (demoMoves.find? fun e => e.1 = fen && e.2.2.1.src = o && e.2.2.1.dst = d).map
    fun e => (e.2.2.1, e.2.2.2)

/-- Every table entry's token is the SAN of its move descriptor. -/
theorem demoMoves_tok_san : ∀ e ∈ demoMoves, e.2.1 = e.2.2.1.san := by decide

/-- The coherence law holds for the table. -/
theorem demoMoveSan_coh :
    ∀ fen tok m fen2, demoMoveSan fen tok = some (m, fen2) → demoMoveObj fen m = some fen2 := by
  intro fen tok m fen2 h
  unfold demoMoveSan at h
  cases hf : demoMoves.find? fun e => e.1 = fen && e.2.1 = tok with
  | none => rw [hf] at h; simp at h
  | some e =>
    rw [hf] at h
    simp only [Option.map_some'] at h
    have hmem := List.mem_of_find?_eq_some hf
    have hpred := List.find?_some hf
    have hsan := demoMoves_tok_san e hmem
    have htok : e.2.1 = tok := by
      simp only [Bool.and_eq_true, decide_eq_true_eq] at hpred
      exact hpred.2
    cases h
    unfold demoMoveObj demoMoveSan
    rw [← hsan, htok, hf]
    simp

/-- The concrete move-evaluation collaborator. -/
def demoApi : ChessApi :=
  ⟨fen0, demoMoveSan, demoMoveObj, demoMoveCoord, demoMoveSan_coh⟩

/-- A concrete id stream: the (n+1)-character string of `a`s.  It is
injective and never collides with the fixed root id. -/
def demoIds (n : Nat) : String := String.mk (List.replicate (n + 1) 'a')

/-! ### Study records and the edit action (`src/lib/chess.ts`,
`src/App.vue`, `src/components/StudyManager.vue`) -/

/-- `Study` from `src/lib/chess.ts`. -/
structure Study where
  id : String
  name : String
  pgn : String
  defaultColor : String
  createdAt : Nat
  updatedAt : Nat
deriving DecidableEq, Repr

/-- A `Partial<Study>`: the fields present in an update record. -/
structure StudyPatch where
  id : Option String := none
  name : Option String := none
  pgn : Option String := none
  defaultColor : Option String := none
  createdAt : Option Nat := none
  updatedAt : Option Nat := none
deriving DecidableEq, Repr

/-- `updateStudy` — `{...study, ...updates, updatedAt: Date.now()}`:
every field present in the patch overrides the study's, and
`updatedAt` is then set to the current time regardless. -/
def updateStudy (s : Study) (u : StudyPatch) (now : Nat) : Study :=
  { id := u.id.getD s.id
    name := u.name.getD s.name
    pgn := u.pgn.getD s.pgn
    defaultColor := u.defaultColor.getD s.defaultColor
    createdAt := u.createdAt.getD s.createdAt
    updatedAt := now }

/-- The study emitted by the editor's save action (`saveEdit` in
`StudyManager.vue`): the original spread with only name, PGN text and
color replaced. -/
def editedStudy (s : Study) (name pgn color : String) : Study :=
  { s with name := name, pgn := pgn, defaultColor := color }

/-- A full study viewed as the `Partial<Study>` it is spread as. -/
def studyPatchOf (u : Study) : StudyPatch :=
  { id := some u.id
    name := some u.name
    pgn := some u.pgn
    defaultColor := some u.defaultColor
    createdAt := some u.createdAt
    updatedAt := some u.updatedAt }

/-- `handleUpdateStudy` in `src/App.vue`: replace the study with the
matching id by `updateStudy` of it against the emitted record. -/
def handleUpdateStudy (studies : List Study) (u : Study) (now : Nat) : List Study :=
  studies.map fun s => if s.id = u.id then updateStudy s (studyPatchOf u) now else s

/-! ### Drill interaction (`handleMove` in `src/App.vue`) -/

/-- The underlying chess.js game: current position plus the history
stack that `undo` pops. -/
structure GameS where
  cur : String
  hist : List String
deriving DecidableEq, Repr

/-- `game.undo()` — return to the previous position; a no-op when no
move has been made. -/
def undoG : GameS → GameS
  | ⟨c, []⟩ => ⟨c, []⟩
  | ⟨_, h :: t⟩ => ⟨h, t⟩

/-- The app mode. -/
inductive AppMode where
  | edit
  | drill
deriving DecidableEq, Repr

/-- The feedback banner values. -/
inductive Feedback where
  | correct
  | variation
  | wrong
deriving DecidableEq, Repr

/-- The action a `setTimeout` callback will perform after `handleMove`
returns: re-invoke line selection (`startNextLine`) or auto-play the
opponent's move (`playOpponentMove`). -/
inductive PendAct where
  | nextLine
  | oppMove
deriving DecidableEq, Repr

/-- The reactive state of `src/App.vue` that `handleMove` touches. -/
structure AppState where
  mode : AppMode
  arena : Arena
  currentNode : Option Nat
  completedLines : List String
  targetLine : List Nat
  targetIdx : Nat
  game : GameS
  feedback : Option Feedback
  lastMove : List String
  pending : Option PendAct
deriving Repr

/-- `getCurrentExpectedMoves` — children of the current node, or of the
root when no current node is set. -/
def expectedMoves (st : AppState) : List Nat :=
  match st.currentNode with
  | none => (getN st.arena 0).children
  | some i => (getN st.arena i).children

/-- `n.move?.lan === move.lan` — does the node at index `c` carry a
move with the given long-form notation? -/
def lanHit (a : Arena) (c : Nat) (l : String) : Bool :=
  match (getN a c).move with
  | some mm => mm.lan == l
  | none => false

/-- `markVariationComplete` — follow first children from `i` down to a
leaf and add that leaf's id to the completed set. -/
def markVariationComplete (a : Arena) : Nat → Nat → List String → List String
  | 0, _, completed => completed
  | f + 1, i, completed =>
    match (getN a i).children with
    | [] => completed ++ [(getN a i).id]
    | c :: _ => markVariationComplete a f c completed

/-- The index reached from `i` by always following the first child. -/
def chainLeafIdx (a : Arena) : Nat → Nat → Nat
  | 0, i => i
  | f + 1, i =>
    match (getN a i).children with
    | [] => i
    | c :: _ => chainLeafIdx a f c

/-- `handleMove` — the move-input handler of `src/App.vue`.  In edit
mode the move is applied freely and the current node follows a matching
child (or is cleared).  In drill mode: a hit on the target node is
"correct" (advance, completing the leaf at end of line); a hit on
another recorded child is "variation" (mark its first-child
continuation completed, reselect a line); anything else is "wrong" and
the move is undone.  Timed callbacks are recorded in `pending`. -/
def handleMove (api : ChessApi) (st : AppState) (orig dest : String) : AppState :=
  match st.mode with
  | .edit =>
    match api.moveCoord st.game.cur orig dest with
    | none => st
    | some (m, f2) =>
      let g2 : GameS := ⟨f2, st.game.cur :: st.game.hist⟩
      let matching := (expectedMoves st).find? fun c => lanHit st.arena c m.lan
      { st with currentNode := matching, game := g2, lastMove := [orig, dest] }
  | .drill =>
    match api.moveCoord st.game.cur orig dest with
    | none => st
    | some (m, f2) =>
      let g2 : GameS := ⟨f2, st.game.cur :: st.game.hist⟩
      let offb : AppState :=
        match (expectedMoves st).find? fun c => lanHit st.arena c m.lan with
        | some mn =>
          { st with feedback := some .variation
                    currentNode := some mn
                    game := g2
                    lastMove := [orig, dest]
                    completedLines :=
                      markVariationComplete st.arena st.arena.length mn st.completedLines
                    pending := some .nextLine }
        | none => { st with feedback := some .wrong, game := undoG g2 }
      match st.targetLine[st.targetIdx]? with
      | some t =>
        if lanHit st.arena t m.lan then
          let idx2 := st.targetIdx + 1
          let base : AppState :=
            { st with feedback := some .correct
                      currentNode := some t
                      game := g2
                      lastMove := [orig, dest]
                      targetIdx := idx2 }
          if idx2 = st.targetLine.length then
            { base with completedLines := st.completedLines ++ [(getN st.arena t).id]
                        pending := some .nextLine }
          else { base with pending := some .oppMove }
        else offb
      | none => offb

/-! ### Builder invariants

The tree builder only ever appends nodes and extends `children` lists;
all other fields of existing nodes are stable.  Every non-root node
points to an earlier parent and records the position obtained by
applying its move to the parent's position. -/

/-- Node `n'` agrees with `n` on every field except possibly
`children`. -/
structure SameCore (n n' : Node) : Prop where
  idEq : n'.id = n.id
  moveEq : n'.move = n.move
  sanEq : n'.san = n.san
  fenEq : n'.fen = n.fen
  parentEq : n'.parent = n.parent
  mainEq : n'.isMainLine = n.isMainLine

/-- `a'` extends `a`: it is at least as long and agrees with `a` on all
existing nodes up to `children`. -/
structure ArenaExt (a a' : Arena) : Prop where
  len : a.length ≤ a'.length
  core : ∀ i, i < a.length → SameCore (getN a i) (getN a' i)

/-- `SameCore` is reflexive. -/
theorem sameCore_self (n : Node) : SameCore n n := ⟨rfl, rfl, rfl, rfl, rfl, rfl⟩

/-- `SameCore` is transitive. -/
theorem sameCore_comp {n1 n2 n3 : Node} (h1 : SameCore n1 n2) (h2 : SameCore n2 n3) :
    SameCore n1 n3 :=
  ⟨h2.idEq.trans h1.idEq, h2.moveEq.trans h1.moveEq, h2.sanEq.trans h1.sanEq,
   h2.fenEq.trans h1.fenEq, h2.parentEq.trans h1.parentEq, h2.mainEq.trans h1.mainEq⟩

/-- `ArenaExt` is reflexive. -/
theorem arenaExt_self (a : Arena) : ArenaExt a a := ⟨le_refl _, fun _ _ => sameCore_self _⟩

/-- `ArenaExt` is transitive. -/
theorem arenaExt_comp {a1 a2 a3 : Arena} (h1 : ArenaExt a1 a2) (h2 : ArenaExt a2 a3) :
    ArenaExt a1 a3 :=
  ⟨h1.len.trans h2.len, fun i hi =>
    sameCore_comp (h1.core i hi) (h2.core i (lt_of_lt_of_le hi h1.len))⟩

/-- The structural invariant of arenas produced by the tree builder. -/
structure ArenaInv (api : ChessApi) (a : Arena) : Prop where
  len_pos : 0 < a.length
  root_parent : (getN a 0).parent = none
  root_move : (getN a 0).move = none
  root_id : (getN a 0).id = "root"
  root_fen : (getN a 0).fen = api.startFen
  node : ∀ i, 0 < i → i < a.length →
    ∃ p m, (getN a i).parent = some p ∧ p < i ∧ (getN a i).move = some m ∧
      api.moveObj ((getN a p).fen) m = some ((getN a i).fen)
  childOk : ∀ i, i < a.length → ∀ c ∈ (getN a i).children, i < c ∧ c < a.length

/-- Reading past the end of an appended arena. -/
theorem getN_append_lt (a : Arena) (n : Node) {i : Nat} (h : i < a.length) :
    getN (a ++ [n]) i = getN a i := by
  simp [getN, List.getElem?_append_left h]

/-- Reading the appended node. -/
theorem getN_append_len (a : Arena) (n : Node) : getN (a ++ [n]) a.length = n := by
  simp [getN]

/-- Reading the updated slot of `set`. -/
theorem getN_set_self (a : Arena) (v : Node) {p : Nat} (h : p < a.length) :
    getN (a.set p v) p = v := by
  simp [getN, List.getElem?_set_self', h]

/-- Reading an untouched slot of `set`. -/
theorem getN_set_ne (a : Arena) (v : Node) {p i : Nat} (h : i ≠ p) :
    getN (a.set p v) i = getN a i := by
  simp [getN, List.getElem?_set_ne (fun hpi => h hpi.symm)]

/-- The arena after attaching one new move node below `cp`. -/
def stepArena (a : Arena) (cp : Nat) (m : MoveD) (fen2 : String) (ml : Bool) (idv : String) :
    Arena :=
  appendChild a cp a.length ++ [⟨idv, some m, m.san, fen2, [], some cp, ml⟩]

/-- Length of the stepped arena. -/
theorem stepArena_length (a : Arena) (cp : Nat) (m : MoveD) (fen2 : String) (ml : Bool)
    (idv : String) : (stepArena a cp m fen2 ml idv).length = a.length + 1 := by
  simp [stepArena, appendChild]

/-- The stepped arena keeps existing nodes, except that `cp` gains a
child. -/
theorem stepArena_getN_lt (a : Arena) {cp : Nat} (m : MoveD) (fen2 : String) (ml : Bool)
    (idv : String) (hcp : cp < a.length) {i : Nat} (hi : i < a.length) :
    getN (stepArena a cp m fen2 ml idv) i =
      if i = cp then { getN a cp with children := (getN a cp).children ++ [a.length] }
      else getN a i := by
  have hlen : i < (appendChild a cp a.length).length := by simp [appendChild]; omega
  rw [stepArena, getN_append_lt _ _ hlen]
  by_cases h : i = cp
  · subst h; rw [if_pos rfl, appendChild, getN_set_self a _ hcp]
  · rw [if_neg h, appendChild, getN_set_ne a _ h]


/-- The new node of the stepped arena. -/
theorem stepArena_getN_new (a : Arena) (cp : Nat) (m : MoveD) (fen2 : String) (ml : Bool)
    (idv : String) :
    getN (stepArena a cp m fen2 ml idv) a.length =
      ⟨idv, some m, m.san, fen2, [], some cp, ml⟩ := by
  have h : (appendChild a cp a.length).length = a.length := by simp [appendChild]
  calc getN (appendChild a cp a.length ++
        [(⟨idv, some m, m.san, fen2, [], some cp, ml⟩ : Node)]) a.length
      = getN (appendChild a cp a.length ++
        [(⟨idv, some m, m.san, fen2, [], some cp, ml⟩ : Node)])
          (appendChild a cp a.length).length := by rw [h]
    _ = ⟨idv, some m, m.san, fen2, [], some cp, ml⟩ := getN_append_len _ _

/-- The stepped arena extends the original. -/
theorem stepArena_ext (a : Arena) {cp : Nat} (m : MoveD) (fen2 : String) (ml : Bool)
    (idv : String) (hcp : cp < a.length) : ArenaExt a (stepArena a cp m fen2 ml idv) := by
  refine ⟨by rw [stepArena_length]; omega, fun i hi => ?_⟩
  rw [stepArena_getN_lt a m fen2 ml idv hcp hi]
  by_cases h : i = cp
  · subst h; rw [if_pos rfl]; exact ⟨rfl, rfl, rfl, rfl, rfl, rfl⟩
  · rw [if_neg h]; exact sameCore_self _

/-- The stepped arena satisfies the invariant when the attached move
was produced by the evaluator at the attachment point's position. -/
theorem stepArena_inv {api : ChessApi} {a : Arena} {cp : Nat} {t : String} {m : MoveD}
    {fen2 : String} (ml : Bool) (idv : String) (inv : ArenaInv api a) (hcp : cp < a.length)
    (hmv : api.moveSan ((getN a cp).fen) t = some (m, fen2)) :
    ArenaInv api (stepArena a cp m fen2 ml idv) := by
  have hlen := stepArena_length a cp m fen2 ml idv
  have hnew := stepArena_getN_new a cp m fen2 ml idv
  have hext := stepArena_ext a m fen2 ml idv hcp
  have hcore := hext.core
  refine ⟨by omega, ?_, ?_, ?_, ?_, ?_, ?_⟩
  · rw [(hcore 0 inv.len_pos).parentEq]; exact inv.root_parent
  · rw [(hcore 0 inv.len_pos).moveEq]; exact inv.root_move
  · rw [(hcore 0 inv.len_pos).idEq]; exact inv.root_id
  · rw [(hcore 0 inv.len_pos).fenEq]; exact inv.root_fen
  · intro i hi0 hiL
    rw [hlen] at hiL
    by_cases hi : i < a.length
    · obtain ⟨p, mm, hp, hpi, hm, hobj⟩ := inv.node i hi0 hi
      have hpl : p < a.length := by omega
      refine ⟨p, mm, ?_, hpi, ?_, ?_⟩
      · rw [(hcore i hi).parentEq]; exact hp
      · rw [(hcore i hi).moveEq]; exact hm
      · rw [(hcore i hi).fenEq, (hcore p hpl).fenEq]; exact hobj
    · have hieq : i = a.length := by omega
      subst hieq
      refine ⟨cp, m, ?_, hcp, ?_, ?_⟩
      · rw [hnew]
      · rw [hnew]
      · rw [hnew, (hcore cp hcp).fenEq]
        exact api.move_coh _ _ _ _ hmv
  · intro i hiL c hc
    rw [hlen] at hiL
    by_cases hi : i < a.length
    · rw [stepArena_getN_lt a m fen2 ml idv hcp hi] at hc
      revert hc; split
      · next h =>
        subst h
        simp only [List.mem_append, List.mem_singleton]
        intro hc
        rcases hc with hc | hc
        · have := inv.childOk i hi c hc; omega
        · omega
      · intro hc; have := inv.childOk i hi c hc; omega
    · have hieq : i = a.length := by omega
      subst hieq
      rw [hnew] at hc
      simp at hc

/-- Master lemma for the tree builder: starting from an invariant
arena with the evaluator positioned at the attachment point, building
(1) preserves the invariant, (2) only extends the arena, (3) gives the
appended nodes consecutive ids from the stream starting at `k`, and
(4) advances the id counter exactly by the number of appended nodes. -/
theorem buildTree_master (api : ChessApi) (ids : Nat → String) :
    ∀ fuel toks a cp fen ml k, ArenaInv api a → cp < a.length → fen = (getN a cp).fen →
      ArenaInv api (buildTree api ids fuel toks a cp fen ml k).1 ∧
      ArenaExt a (buildTree api ids fuel toks a cp fen ml k).1 ∧
      (∀ i, a.length ≤ i → i < (buildTree api ids fuel toks a cp fen ml k).1.length →
        (getN (buildTree api ids fuel toks a cp fen ml k).1 i).id = ids (k + (i - a.length))) ∧
      (buildTree api ids fuel toks a cp fen ml k).2 =
        k + ((buildTree api ids fuel toks a cp fen ml k).1.length - a.length) := by
  intro fuel
  induction fuel with
  | zero =>
    intro toks a cp fen ml k inv hcp hfen
    refine ⟨inv, arenaExt_self a, ?_, ?_⟩
    · intro i h1 h2; simp only [buildTree] at h1 h2 ⊢; omega
    · simp only [buildTree]; omega
  | succ fuel IH =>
    intro toks a cp fen ml k inv hcp hfen
    cases toks with
    | nil =>
      refine ⟨inv, arenaExt_self a, ?_, ?_⟩
      · intro i h1 h2; simp only [buildTree] at h1 h2 ⊢; omega
      · simp only [buildTree]; omega
    | cons t ts =>
      by_cases hpar : t = "("
      · cases hP : (getN a cp).parent with
        | none =>
          have hunfold : buildTree api ids (fuel + 1) (t :: ts) a cp fen ml k =
              buildTree api ids fuel (scanVar ts 1).2 a cp fen ml k := by
            simp only [buildTree, if_pos hpar, hP]
          rw [hunfold]
          exact IH (scanVar ts 1).2 a cp fen ml k inv hcp hfen
        | some bp =>
          have hbp : bp < cp := by
            by_cases hc0 : cp = 0
            · rw [hc0] at hP; rw [inv.root_parent] at hP; cases hP
            · obtain ⟨p, mm, hp, hpi, _, _⟩ := inv.node cp (Nat.pos_of_ne_zero hc0) hcp
              rw [hp] at hP; cases hP; exact hpi
          have hbpl : bp < a.length := by omega
          have hunfold : buildTree api ids (fuel + 1) (t :: ts) a cp fen ml k =
              buildTree api ids fuel (scanVar ts 1).2
                (buildTree api ids fuel (scanVar ts 1).1.dropLast a bp ((getN a bp).fen) false k).1
                cp fen ml
                (buildTree api ids fuel (scanVar ts 1).1.dropLast a bp ((getN a bp).fen) false k).2 := by
            simp only [buildTree, if_pos hpar, hP]
          rw [hunfold]
          obtain ⟨inv1, ext1, ids1, k1⟩ :=
            IH (scanVar ts 1).1.dropLast a bp ((getN a bp).fen) false k inv hbpl rfl
          set r := buildTree api ids fuel (scanVar ts 1).1.dropLast a bp ((getN a bp).fen) false k
            with hr
          have hcp1 : cp < r.1.length := by have := ext1.len; omega
          have hfen1 : fen = (getN r.1 cp).fen := by
            rw [(ext1.core cp hcp).fenEq]; exact hfen
          obtain ⟨inv2, ext2, ids2, k2⟩ := IH (scanVar ts 1).2 r.1 cp fen ml r.2 inv1 hcp1 hfen1
          set s := buildTree api ids fuel (scanVar ts 1).2 r.1 cp fen ml r.2 with hs
          refine ⟨inv2, arenaExt_comp ext1 ext2, ?_, ?_⟩
          · intro i h1 h2
            by_cases hir : i < r.1.length
            · rw [(ext2.core i hir).idEq, ids1 i h1 hir]
            · rw [ids2 i (by omega) h2, k1]
              exact congrArg ids (by have := ext1.len; omega)
          · rw [k2, k1]
            have h1 := ext1.len
            have h2 := ext2.len
            omega
      · by_cases hcl : t = ")"
        · have hunfold : buildTree api ids (fuel + 1) (t :: ts) a cp fen ml k = (a, k) := by
            simp only [buildTree, if_neg hpar, if_pos hcl]
          rw [hunfold]
          refine ⟨inv, arenaExt_self a, ?_, ?_⟩
          · intro i h1 h2; dsimp only at h1 h2 ⊢; omega
          · dsimp only; omega
        · by_cases hem : t = ""
          · have hunfold : buildTree api ids (fuel + 1) (t :: ts) a cp fen ml k =
                buildTree api ids fuel ts a cp fen ml k := by
              simp only [buildTree, if_neg hpar, if_neg hcl, if_pos hem]
            rw [hunfold]
            exact IH ts a cp fen ml k inv hcp hfen
          · cases hmv : api.moveSan fen t with
            | none =>
              have hunfold : buildTree api ids (fuel + 1) (t :: ts) a cp fen ml k =
                  buildTree api ids fuel ts a cp fen ml k := by
                simp only [buildTree, if_neg hpar, if_neg hcl, if_neg hem, hmv]
              rw [hunfold]
              exact IH ts a cp fen ml k inv hcp hfen
            | some pr =>
              obtain ⟨m, fen2⟩ := pr
              have hunfold : buildTree api ids (fuel + 1) (t :: ts) a cp fen ml k =
                  buildTree api ids fuel ts (stepArena a cp m fen2 ml (ids k)) a.length fen2 ml
                    (k + 1) := by
                simp only [buildTree, if_neg hpar, if_neg hcl, if_neg hem, hmv]
                rfl
              rw [hunfold]
              have hmv' : api.moveSan ((getN a cp).fen) t = some (m, fen2) := by
                rw [← hfen]; exact hmv
              have inv2 := stepArena_inv ml (ids k) inv hcp hmv'
              have hext := stepArena_ext a m fen2 ml (ids k) hcp
              have hlen2 := stepArena_length a cp m fen2 ml (ids k)
              have hcp2 : a.length < (stepArena a cp m fen2 ml (ids k)).length := by omega
              have hfen2 : fen2 = (getN (stepArena a cp m fen2 ml (ids k)) a.length).fen := by
                rw [stepArena_getN_new]
              obtain ⟨inv3, ext3, ids3, k3⟩ :=
                IH ts (stepArena a cp m fen2 ml (ids k)) a.length fen2 ml (k + 1) inv2 hcp2 hfen2
              set s := buildTree api ids fuel ts (stepArena a cp m fen2 ml (ids k)) a.length fen2
                ml (k + 1) with hs
              refine ⟨inv3, arenaExt_comp hext ext3, ?_, ?_⟩
              · intro i h1 h2
                by_cases hieq : i = a.length
                · subst hieq
                  rw [(ext3.core a.length (by omega)).idEq, stepArena_getN_new]
                  exact congrArg ids (by omega)
                · rw [ids3 i (by omega) h2]
                  exact congrArg ids (by omega)
              · rw [k3]
                have := ext3.len
                omega

/-- The fresh one-node arena satisfies the invariant. -/
theorem rootArena_inv (api : ChessApi) : ArenaInv api [rootNode api] := by
  have h : getN [rootNode api] 0 = rootNode api := by simp [getN]
  refine ⟨by simp, ?_, ?_, ?_, ?_, ?_, ?_⟩
  · rw [h]; rfl
  · rw [h]; rfl
  · rw [h]; rfl
  · rw [h]; rfl
  · intro i h1 h2; simp at h2; omega
  · intro i hi c hc
    have hi0 : i = 0 := by simp at hi; omega
    subst hi0
    rw [h] at hc
    simp [rootNode] at hc

/-- Unfolding lemma for `parsePgnToTree`. -/
theorem parsePgnToTree_def (api : ChessApi) (ids : Nat → String) (k : Nat) (pgn : String) :
    parsePgnToTree api ids k pgn =
      if cleanPgn pgn = "" then ([rootNode api], k)
      else buildTree api ids ((tokenize (cleanPgn pgn)).length + 1) (tokenize (cleanPgn pgn))
        [rootNode api] 0 api.startFen true k := rfl

/-- Every arena produced by `parsePgnToTree` satisfies the builder
invariant. -/
theorem parse_inv (api : ChessApi) (ids : Nat → String) (k : Nat) (pgn : String) :
    ArenaInv api (parsePgnToTree api ids k pgn).1 := by
  rw [parsePgnToTree_def]
  split
  · exact rootArena_inv api
  · have h0 : (0 : Nat) < ([rootNode api] : Arena).length := by simp
    have hfen : api.startFen = (getN [rootNode api] 0).fen := by simp [getN, rootNode]
    exact (buildTree_master api ids (tokenize (cleanPgn pgn)).length.succ (tokenize (cleanPgn pgn))
      [rootNode api] 0 api.startFen true k (rootArena_inv api) h0 hfen).1

/-- Every non-root node of a parsed arena carries the id drawn from the
stream at the corresponding position: node `i` gets `ids (k + i - 1)`. -/
theorem parse_ids (api : ChessApi) (ids : Nat → String) (k : Nat) (pgn : String) :
    ∀ i, 0 < i → i < (parsePgnToTree api ids k pgn).1.length →
      (getN (parsePgnToTree api ids k pgn).1 i).id = ids (k + (i - 1)) := by
  rw [parsePgnToTree_def]
  split
  · intro i h1 h2; simp at h2; omega
  · have h0 : (0 : Nat) < ([rootNode api] : Arena).length := by simp
    have hfen : api.startFen = (getN [rootNode api] 0).fen := by simp [getN, rootNode]
    intro i h1 h2
    exact (buildTree_master api ids (tokenize (cleanPgn pgn)).length.succ (tokenize (cleanPgn pgn))
      [rootNode api] 0 api.startFen true k (rootArena_inv api) h0 hfen).2.2.1 i (by simpa) h2

/-- The id counter after a parse: `k` plus the number of non-root nodes
created. -/
theorem parse_k (api : ChessApi) (ids : Nat → String) (k : Nat) (pgn : String) :
    (parsePgnToTree api ids k pgn).2 = k + ((parsePgnToTree api ids k pgn).1.length - 1) := by
  rw [parsePgnToTree_def]
  split
  · simp
  · have h0 : (0 : Nat) < ([rootNode api] : Arena).length := by simp
    have hfen : api.startFen = (getN [rootNode api] 0).fen := by simp [getN, rootNode]
    simpa using (buildTree_master api ids (tokenize (cleanPgn pgn)).length.succ
      (tokenize (cleanPgn pgn)) [rootNode api] 0 api.startFen true k (rootArena_inv api) h0
      hfen).2.2.2

/-- Heads of appended lists. -/
theorem head?_append_of_head? {xs ys : List Nat} {z : Nat} (h : xs.head? = some z) :
    (xs ++ ys).head? = some z := by
  cases xs with
  | nil => simp at h
  | cons x xt => simpa using h

/-- Under the builder invariant, the path to a node starts at the root,
ends at the node, has length one more than the node's depth, and
re-applying its moves from the starting position reproduces the node's
position. -/
theorem pathToAux_spec {api : ChessApi} {a : Arena} (inv : ArenaInv api a) :
    ∀ i, i < a.length → ∀ f, i < f →
      (pathToAux a f i).head? = some 0 ∧
      (pathToAux a f i).getLast? = some i ∧
      (pathToAux a f i).length = depthA a f i + 1 ∧
      replayPath api a (pathToAux a f i) = some ((getN a i).fen) := by
  intro i
  induction i using Nat.strong_induction_on with
  | _ i IH =>
    intro hi f hf
    obtain ⟨g, rfl⟩ : ∃ g, f = g + 1 := ⟨f - 1, by omega⟩
    by_cases h0 : i = 0
    · subst h0
      simp only [pathToAux, depthA, inv.root_parent]
      refine ⟨rfl, rfl, rfl, ?_⟩
      simp [replayPath, replayStep, inv.root_move, inv.root_fen]
    · obtain ⟨p, m, hp, hpi, hm, hobj⟩ := inv.node i (Nat.pos_of_ne_zero h0) hi
      obtain ⟨hhead, hlast, hlen, hreplay⟩ := IH p hpi (by omega) g (by omega)
      simp only [pathToAux, depthA, hp]
      refine ⟨head?_append_of_head? hhead, List.getLast?_concat _, ?_, ?_⟩
      · simp [hlen]
      · rw [replayPath, List.foldl_append]
        rw [replayPath] at hreplay
        rw [hreplay]
        simp only [List.foldl_cons, List.foldl_nil, replayStep, hm]
        exact hobj

/-- Leaves enumerated from in-range indices are in range. -/
theorem leavesFrom_lt {api : ChessApi} {a : Arena} (inv : ArenaInv api a) :
    ∀ f l, (∀ j ∈ l, j < a.length) → ∀ x ∈ leavesFrom a f l, x < a.length := by
  intro f
  induction f with
  | zero => intro l hl x hx; simp [leavesFrom] at hx
  | succ f IH =>
    intro l hl x hx
    cases l with
    | nil => simp [leavesFrom] at hx
    | cons i rest =>
      simp only [leavesFrom] at hx
      rcases List.mem_append.mp hx with hx | hx
      · by_cases hc : (getN a i).children = []
        · rw [if_pos hc] at hx
          simp only [List.mem_singleton] at hx
          subst hx
          exact hl _ (by simp)
        · rw [if_neg hc] at hx
          exact IH _ (fun j hj => (inv.childOk i (hl i (by simp)) j hj).2) x hx
      · exact IH rest (fun j hj => hl j (by simp [hj])) x hx

/-- Every enumerated leaf of an invariant arena is in range. -/
theorem getLeafNodes_lt {api : ChessApi} {a : Arena} (inv : ArenaInv api a) :
    ∀ x ∈ getLeafNodes a, x < a.length := by
  intro x hx
  exact leavesFrom_lt inv _ [0] (by intro j hj; simp at hj; subst hj; exact inv.len_pos) x hx

/-- A node carrying a move is the last element of its own line. -/
theorem lineO_getLast {a : Arena} {i f : Nat} (hf : 0 < f) {m : MoveD}
    (hm : (getN a i).move = some m) : (lineO a f i).getLast? = some i := by
  obtain ⟨g, rfl⟩ : ∃ g, f = g + 1 := ⟨f - 1, by omega⟩
  simp only [lineO, hm]
  cases hp : (getN a i).parent with
  | none => rfl
  | some p => exact List.getLast?_concat _

/-- The loop of `findNextUnplayedLine` over the mapped lines agrees
with a first-leaf search over the leaf list, given the invariant and
non-empty ids for non-root nodes. -/
theorem fnulGo_eq_find {api : ChessApi} {a : Arena} (inv : ArenaInv api a)
    (hid : ∀ i, 0 < i → i < a.length → (getN a i).id ≠ "") (completed : List String) :
    ∀ leaves : List Nat, (∀ x ∈ leaves, x < a.length) →
      fnulGo a completed (leaves.map (lineO a a.length)) =
        (leaves.find? fun l =>
          (getN a l).move.isSome && ! completed.contains (getN a l).id).map
          (lineO a a.length) := by
  intro leaves
  induction leaves with
  | nil => intro h; simp [fnulGo]
  | cons x xt IH =>
    intro hbound
    have hx : x < a.length := hbound x (by simp)
    have hrest : ∀ j ∈ xt, j < a.length := fun j hj => hbound j (by simp [hj])
    simp only [List.map_cons, fnulGo]
    cases hm : (getN a x).move with
    | none =>
      have hlaeq : lineO a a.length x = [] := by
        obtain ⟨g, hg⟩ : ∃ g, a.length = g + 1 := ⟨a.length - 1, by have := inv.len_pos; omega⟩
        rw [hg]; simp only [lineO, hm]
      rw [hlaeq]
      rw [List.find?_cons]
      simp only [hm, Option.isSome_none, Bool.false_and]
      simpa using IH hrest
    | some mm =>
      have hx0 : 0 < x := by
        rcases Nat.eq_zero_or_pos x with h | h
        · exfalso; rw [h, inv.root_move] at hm; cases hm
        · exact h
      have hlast : (lineO a a.length x).getLast? = some x :=
        lineO_getLast (by have := inv.len_pos; omega) hm
      rw [hlast]
      rw [List.find?_cons]
      simp only [hm, Option.isSome_some, Bool.true_and]
      by_cases hc : completed.contains (getN a x).id
      · rw [if_neg (fun h => h.2 hc), hc]
        simpa using IH hrest
      · rw [if_pos ⟨hid x hx0 hx, hc⟩]
        have hcfalse : completed.contains (getN a x).id = false := by
          simpa using hc
        rw [hcfalse]
        simp

/-- A node's shape: every field except the identity. -/
structure NodeShape where
  move : Option MoveD
  san : String
  fen : String
  children : List Nat
  parent : Option Nat
  isMainLine : Bool
deriving DecidableEq, Repr

/-- Forget a node's identity. -/
def shapeOf (n : Node) : NodeShape := ⟨n.move, n.san, n.fen, n.children, n.parent, n.isMainLine⟩

/-- Forget all identities of an arena. -/
def stripIds (a : Arena) : List NodeShape := a.map shapeOf

/-- Arenas with equal shapes have equal lengths. -/
theorem stripIds_length {a a' : Arena} (h : stripIds a = stripIds a') :
    a.length = a'.length := by
  have := congrArg List.length h
  simpa [stripIds] using this

/-- Arenas with equal shapes have pointwise equal node shapes. -/
theorem stripIds_getN {a a' : Arena} (h : stripIds a = stripIds a') (i : Nat) :
    shapeOf (getN a i) = shapeOf (getN a' i) := by
  have h1 : (a[i]?).map shapeOf = (a'[i]?).map shapeOf := by
    simpa [stripIds, List.getElem?_map] using congrArg (fun l => l[i]?) h
  cases ha : a[i]? with
  | none =>
    cases ha' : a'[i]? with
    | none => simp [getN, ha, ha']
    | some y => rw [ha, ha'] at h1; simp at h1
  | some x =>
    cases ha' : a'[i]? with
    | none => rw [ha, ha'] at h1; simp at h1
    | some y =>
      rw [ha, ha'] at h1
      simp only [Option.map_some', Option.some.injEq] at h1
      simp [getN, ha, ha', h1]

/-- Stepping two shape-equal arenas with the same move yields
shape-equal arenas, whatever ids the new nodes receive. -/
theorem stepArena_shape {a a' : Arena} (h : stripIds a = stripIds a') (cp : Nat) (m : MoveD)
    (fen2 : String) (ml : Bool) (idv idv' : String) :
    stripIds (stepArena a cp m fen2 ml idv) = stripIds (stepArena a' cp m fen2 ml idv') := by
  have hlen := stripIds_length h
  have hcp := stripIds_getN h cp
  have hch : (getN a cp).children = (getN a' cp).children := congrArg NodeShape.children hcp
  simp only [stepArena, appendChild, stripIds, List.map_append, List.map_set, List.map_cons,
    List.map_nil]
  rw [← stripIds, ← stripIds, h, hch, hlen]
  have h1 := congrArg NodeShape.move hcp
  have h2 := congrArg NodeShape.san hcp
  have h3 := congrArg NodeShape.fen hcp
  have h4 := congrArg NodeShape.parent hcp
  have h5 := congrArg NodeShape.isMainLine hcp
  simp only [shapeOf] at h1 h2 h3 h4 h5 ⊢
  rw [h1, h2, h3, h4, h5]

/-- The tree builder produces shape-equal arenas from shape-equal
arenas: the result's shape does not depend on the id stream or
counter. -/
theorem buildTree_shape (api : ChessApi) (ids ids' : Nat → String) :
    ∀ fuel toks a a' cp fen ml k k', stripIds a = stripIds a' →
      stripIds (buildTree api ids fuel toks a cp fen ml k).1 =
        stripIds (buildTree api ids' fuel toks a' cp fen ml k').1 := by
  intro fuel
  induction fuel with
  | zero => intro toks a a' cp fen ml k k' h; simpa [buildTree] using h
  | succ fuel IH =>
    intro toks a a' cp fen ml k k' h
    cases toks with
    | nil => simpa [buildTree] using h
    | cons t ts =>
      by_cases hpar : t = "("
      · have hpeq : (getN a cp).parent = (getN a' cp).parent :=
          congrArg NodeShape.parent (stripIds_getN h cp)
        cases hP : (getN a cp).parent with
        | none =>
          have hP' : (getN a' cp).parent = none := by rw [← hpeq, hP]
          have hu : buildTree api ids (fuel + 1) (t :: ts) a cp fen ml k =
              buildTree api ids fuel (scanVar ts 1).2 a cp fen ml k := by
            simp only [buildTree, if_pos hpar, hP]
          have hu' : buildTree api ids' (fuel + 1) (t :: ts) a' cp fen ml k' =
              buildTree api ids' fuel (scanVar ts 1).2 a' cp fen ml k' := by
            simp only [buildTree, if_pos hpar, hP']
          rw [hu, hu']
          exact IH _ a a' cp fen ml k k' h
        | some bp =>
          have hP' : (getN a' cp).parent = some bp := by rw [← hpeq, hP]
          have hfeq : (getN a bp).fen = (getN a' bp).fen :=
            congrArg NodeShape.fen (stripIds_getN h bp)
          have hu : buildTree api ids (fuel + 1) (t :: ts) a cp fen ml k =
              buildTree api ids fuel (scanVar ts 1).2
                (buildTree api ids fuel (scanVar ts 1).1.dropLast a bp ((getN a bp).fen) false
                  k).1 cp fen ml
                (buildTree api ids fuel (scanVar ts 1).1.dropLast a bp ((getN a bp).fen) false
                  k).2 := by
            simp only [buildTree, if_pos hpar, hP]
          have hu' : buildTree api ids' (fuel + 1) (t :: ts) a' cp fen ml k' =
              buildTree api ids' fuel (scanVar ts 1).2
                (buildTree api ids' fuel (scanVar ts 1).1.dropLast a' bp ((getN a' bp).fen) false
                  k').1 cp fen ml
                (buildTree api ids' fuel (scanVar ts 1).1.dropLast a' bp ((getN a' bp).fen) false
                  k').2 := by
            simp only [buildTree, if_pos hpar, hP']
          rw [hu, hu', ← hfeq]
          exact IH _ _ _ cp fen ml _ _
            (IH _ a a' bp ((getN a bp).fen) false k k' h)
      · by_cases hcl : t = ")"
        · have hu : buildTree api ids (fuel + 1) (t :: ts) a cp fen ml k = (a, k) := by
            simp only [buildTree, if_neg hpar, if_pos hcl]
          have hu' : buildTree api ids' (fuel + 1) (t :: ts) a' cp fen ml k' = (a', k') := by
            simp only [buildTree, if_neg hpar, if_pos hcl]
          rw [hu, hu']
          exact h
        · by_cases hem : t = ""
          · have hu : buildTree api ids (fuel + 1) (t :: ts) a cp fen ml k =
                buildTree api ids fuel ts a cp fen ml k := by
              simp only [buildTree, if_neg hpar, if_neg hcl, if_pos hem]
            have hu' : buildTree api ids' (fuel + 1) (t :: ts) a' cp fen ml k' =
                buildTree api ids' fuel ts a' cp fen ml k' := by
              simp only [buildTree, if_neg hpar, if_neg hcl, if_pos hem]
            rw [hu, hu']
            exact IH ts a a' cp fen ml k k' h
          · cases hmv : api.moveSan fen t with
            | none =>
              have hu : buildTree api ids (fuel + 1) (t :: ts) a cp fen ml k =
                  buildTree api ids fuel ts a cp fen ml k := by
                simp only [buildTree, if_neg hpar, if_neg hcl, if_neg hem, hmv]
              have hu' : buildTree api ids' (fuel + 1) (t :: ts) a' cp fen ml k' =
                  buildTree api ids' fuel ts a' cp fen ml k' := by
                simp only [buildTree, if_neg hpar, if_neg hcl, if_neg hem, hmv]
              rw [hu, hu']
              exact IH ts a a' cp fen ml k k' h
            | some pr =>
              obtain ⟨m, fen2⟩ := pr
              have hu : buildTree api ids (fuel + 1) (t :: ts) a cp fen ml k =
                  buildTree api ids fuel ts (stepArena a cp m fen2 ml (ids k)) a.length fen2 ml
                    (k + 1) := by
                simp only [buildTree, if_neg hpar, if_neg hcl, if_neg hem, hmv]
                rfl
              have hu' : buildTree api ids' (fuel + 1) (t :: ts) a' cp fen ml k' =
                  buildTree api ids' fuel ts (stepArena a' cp m fen2 ml (ids' k')) a'.length fen2
                    ml (k' + 1) := by
                simp only [buildTree, if_neg hpar, if_neg hcl, if_neg hem, hmv]
                rfl
              rw [hu, hu', ← stripIds_length h]
              exact IH ts _ _ a.length fen2 ml (k + 1) (k' + 1)
                (stepArena_shape h cp m fen2 ml (ids k) (ids' k'))

/-- Re-parsing the same PGN text yields a shape-identical arena,
whatever the id stream and counter. -/
theorem parse_shape (api : ChessApi) (ids ids' : Nat → String) (k k' : Nat) (pgn : String) :
    stripIds (parsePgnToTree api ids k pgn).1 = stripIds (parsePgnToTree api ids' k' pgn).1 := by
  rw [parsePgnToTree_def, parsePgnToTree_def]
  split
  · rfl
  · exact buildTree_shape api ids ids' _ _ _ _ 0 api.startFen true k k' rfl

/-- With enough fuel, `markVariationComplete` adds exactly the id of
the node reached by always following the first child, and that node is
a leaf. -/
theorem markVariation_eq {api : ChessApi} {a : Arena} (inv : ArenaInv api a) :
    ∀ f i completed, i < a.length → a.length - i ≤ f →
      markVariationComplete a f i completed =
        completed ++ [(getN a (chainLeafIdx a f i)).id] ∧
      (getN a (chainLeafIdx a f i)).children = [] := by
  intro f
  induction f with
  | zero => intro i completed hi hf; omega
  | succ f IH =>
    intro i completed hi hf
    cases hc : (getN a i).children with
    | nil => simp [markVariationComplete, chainLeafIdx, hc]
    | cons c rest =>
      have hcc := inv.childOk i hi c (by rw [hc]; simp)
      simp only [markVariationComplete, chainLeafIdx, hc]
      exact IH c completed hcc.2 (by omega)

/-- The demo id stream is injective. -/
theorem demoIds_inj : Function.Injective demoIds := by
  intro m n h
  have h2 := congrArg String.length h
  simpa [demoIds, String.length] using h2

/-- The demo id stream never produces the empty string. -/
theorem demoIds_ne_empty (n : Nat) : demoIds n ≠ "" := by
  intro h
  have h2 := congrArg String.length h
  simp [demoIds, String.length] at h2

/-- The demo id stream never produces the fixed root id. -/
theorem demoIds_ne_root (n : Nat) : demoIds n ≠ "root" := by
  intro h
  have h2 := congrArg String.toList h
  have h3 : List.replicate (n + 1) 'a' = "root".toList := h2
  rw [List.replicate_succ] at h3
  simp [String.toList] at h3

/-- Concatenating all tokens recovers the buffer and the space-free
characters of the input. -/
theorem tokAux_flat : ∀ cs cur,
    (tokAux cs cur).flatten = cur ++ cs.filter (fun c => c ≠ ' ') := by
  intro cs
  induction cs with
  | nil => intro cur; by_cases h : cur = [] <;> simp [tokAux, h]
  | cons c cs IH =>
    intro cur
    simp only [tokAux]
    cases hc : (c = '(' || c = ')' || c = ' ') with
    | true =>
      rw [if_pos rfl]
      by_cases hsp : c = ' '
      · rw [if_pos hsp]
        subst hsp
        by_cases hz : cur = [] <;> simp [hz, IH, List.filter_cons]
      · rw [if_neg hsp]
        have hcne : ¬ (c = ' ') := hsp
        by_cases hz : cur = [] <;>
          simp [hz, IH, List.filter_cons, hcne]
    | false =>
      rw [if_neg (by simp [hc])]
      have hcs : ¬ (c = ' ') := by
        intro h; rw [h] at hc; simp at hc
      rw [IH]
      simp [List.filter_cons, hcs]

/-- Every token is a paren marker or a non-empty run of
non-separator characters. -/
theorem tokAux_mem : ∀ cs cur, (∀ c ∈ cur, c ≠ ' ' ∧ c ≠ '(' ∧ c ≠ ')') →
    ∀ t ∈ tokAux cs cur,
      t = ['('] ∨ t = [')'] ∨ (t ≠ [] ∧ ∀ c ∈ t, c ≠ ' ' ∧ c ≠ '(' ∧ c ≠ ')') := by
  intro cs
  induction cs with
  | nil =>
    intro cur hcur t ht
    simp only [tokAux] at ht
    by_cases hz : cur = []
    · rw [if_pos hz] at ht; simp at ht
    · rw [if_neg hz] at ht
      simp only [List.mem_singleton] at ht
      subst ht
      exact Or.inr (Or.inr ⟨hz, hcur⟩)
  | cons c cs IH =>
    intro cur hcur t ht
    simp only [tokAux] at ht
    cases hc : (c = '(' || c = ')' || c = ' ') with
    | true =>
      rw [hc, if_pos rfl] at ht
      rcases List.mem_append.mp ht with ht1 | ht1
      · rcases List.mem_append.mp ht1 with ht2 | ht2
        · by_cases hz : cur = []
          · rw [if_pos hz] at ht2; simp at ht2
          · rw [if_neg hz] at ht2
            simp only [List.mem_singleton] at ht2
            subst ht2
            exact Or.inr (Or.inr ⟨hz, hcur⟩)
        · by_cases hsp : c = ' '
          · rw [if_pos hsp] at ht2; simp at ht2
          · rw [if_neg hsp] at ht2
            simp only [List.mem_singleton] at ht2
            subst ht2
            simp only [Bool.or_eq_true, decide_eq_true_eq] at hc
            rcases hc with (h | h) | h
            · exact Or.inl (by rw [h])
            · exact Or.inr (Or.inl (by rw [h]))
            · exact absurd h hsp
      · exact IH [] (by simp) t ht1
    | false =>
      rw [hc, if_neg (by simp)] at ht
      have h1 : c ≠ '(' := by intro h; rw [h] at hc; simp at hc
      have h2 : c ≠ ')' := by intro h; rw [h] at hc; simp at hc
      have h3 : c ≠ ' ' := by intro h; rw [h] at hc; simp at hc
      refine IH (cur ++ [c]) ?_ t ht
      intro x hx
      rcases List.mem_append.mp hx with hx | hx
      · exact hcur x hx
      · simp only [List.mem_singleton] at hx
        subst hx
        exact ⟨h3, h1, h2⟩

/-- Folding string append over made strings makes the flattened
list. -/
theorem foldl_append_mk : ∀ ls : List (List Char), ∀ acc : List Char,
    (ls.map String.mk).foldl (· ++ ·) (String.mk acc) = String.mk (acc ++ ls.flatten) := by
  intro ls
  induction ls with
  | nil => intro acc; simp
  | cons l ls IH =>
    intro acc
    simp only [List.map_cons, List.foldl_cons]
    have h : String.mk acc ++ String.mk l = String.mk (acc ++ l) := rfl
    rw [h, IH]
    simp

/-- `String.join` over made strings is the made flattened list. -/
theorem join_map_mk (ls : List (List Char)) :
    String.join (ls.map String.mk) = String.mk ls.flatten := by
  have h := foldl_append_mk ls []
  simpa [String.join] using h

/-! ### Claim theorems -/

/-- C1: parsing `"1. e4 (1. d4 d5) e5"` produces a root whose only
main child is `e4`, with main continuation `e5` at child index 0, and
a variation child `d4` (itself having child `d5`) attached at the
root — the parent of `e4` — as a sibling of `e4` rather than its
continuation; `getLeafNodes` returns exactly the two leaves `e5` and
`d5`. -/
theorem variation_branching_C1 :
    (parsePgnToTree demoApi demoIds 0 "1. e4 (1. d4 d5) e5").1.length = 5 ∧
    (getN (parsePgnToTree demoApi demoIds 0 "1. e4 (1. d4 d5) e5").1 0).children = [1, 2] ∧
    (getN (parsePgnToTree demoApi demoIds 0 "1. e4 (1. d4 d5) e5").1 1).san = "e4" ∧
    (getN (parsePgnToTree demoApi demoIds 0 "1. e4 (1. d4 d5) e5").1 1).parent = some 0 ∧
    (getN (parsePgnToTree demoApi demoIds 0 "1. e4 (1. d4 d5) e5").1 1).isMainLine = true ∧
    (getN (parsePgnToTree demoApi demoIds 0 "1. e4 (1. d4 d5) e5").1 1).children = [4] ∧
    (getN (parsePgnToTree demoApi demoIds 0 "1. e4 (1. d4 d5) e5").1 4).san = "e5" ∧
    (getN (parsePgnToTree demoApi demoIds 0 "1. e4 (1. d4 d5) e5").1 4).parent = some 1 ∧
    (getN (parsePgnToTree demoApi demoIds 0 "1. e4 (1. d4 d5) e5").1 4).children = [] ∧
    (getN (parsePgnToTree demoApi demoIds 0 "1. e4 (1. d4 d5) e5").1 4).isMainLine = true ∧
    (getN (parsePgnToTree demoApi demoIds 0 "1. e4 (1. d4 d5) e5").1 2).san = "d4" ∧
    (getN (parsePgnToTree demoApi demoIds 0 "1. e4 (1. d4 d5) e5").1 2).parent = some 0 ∧
    (getN (parsePgnToTree demoApi demoIds 0 "1. e4 (1. d4 d5) e5").1 2).isMainLine = false ∧
    (getN (parsePgnToTree demoApi demoIds 0 "1. e4 (1. d4 d5) e5").1 2).children = [3] ∧
    (getN (parsePgnToTree demoApi demoIds 0 "1. e4 (1. d4 d5) e5").1 3).san = "d5" ∧
    (getN (parsePgnToTree demoApi demoIds 0 "1. e4 (1. d4 d5) e5").1 3).parent = some 2 ∧
    (getN (parsePgnToTree demoApi demoIds 0 "1. e4 (1. d4 d5) e5").1 3).children = [] ∧
    getLeafNodes (parsePgnToTree demoApi demoIds 0 "1. e4 (1. d4 d5) e5").1 = [4, 3] := by
  decide

/-- C3 counterexample: parsing `"1. e4 (1. d4"` does NOT attach a `d4`
variation — the matching-close scan runs off the end and the variation
slice `tokens.slice(i + 1, j - 1)` drops the final token, so the
resulting tree consists of the root and the single `e4` node only. -/
theorem unbalanced_paren_C3_cex :
    (parsePgnToTree demoApi demoIds 0 "1. e4 (1. d4").1.length = 2 ∧
    (getN (parsePgnToTree demoApi demoIds 0 "1. e4 (1. d4").1 0).children = [1] ∧
    (getN (parsePgnToTree demoApi demoIds 0 "1. e4 (1. d4").1 1).san = "e4" ∧
    (getN (parsePgnToTree demoApi demoIds 0 "1. e4 (1. d4").1 1).children = [] ∧
    (getN (parsePgnToTree demoApi demoIds 0 "1. e4 (1. d4").1 0).san ≠ "d4" ∧
    (getN (parsePgnToTree demoApi demoIds 0 "1. e4 (1. d4").1 1).san ≠ "d4" := by
  decide

/-- C3 amended: an unmatched open parenthesis is tolerated (parsing is
total and never rejects); the scan for the close runs to end of input,
and the tokens after `"("` EXCLUDING THE LAST form the variation body
(the slice assumes a closing parenthesis).  Hence `"1. e4 (1. d4"`
yields a root with sole main child `e4` and no variation at all, while
`"1. e4 (1. d4 d5"` yields the variation `d4` (as a sibling of `e4` at
the root) with `d5` dropped. -/
theorem unbalanced_paren_C3_amended :
    (parsePgnToTree demoApi demoIds 0 "1. e4 (1. d4").1.length = 2 ∧
    (getN (parsePgnToTree demoApi demoIds 0 "1. e4 (1. d4").1 0).children = [1] ∧
    (getN (parsePgnToTree demoApi demoIds 0 "1. e4 (1. d4").1 1).san = "e4" ∧
    (getN (parsePgnToTree demoApi demoIds 0 "1. e4 (1. d4").1 1).children = [] ∧
    (parsePgnToTree demoApi demoIds 0 "1. e4 (1. d4 d5").1.length = 3 ∧
    (getN (parsePgnToTree demoApi demoIds 0 "1. e4 (1. d4 d5").1 0).children = [1, 2] ∧
    (getN (parsePgnToTree demoApi demoIds 0 "1. e4 (1. d4 d5").1 1).san = "e4" ∧
    (getN (parsePgnToTree demoApi demoIds 0 "1. e4 (1. d4 d5").1 2).san = "d4" ∧
    (getN (parsePgnToTree demoApi demoIds 0 "1. e4 (1. d4 d5").1 2).parent = some 0 ∧
    (getN (parsePgnToTree demoApi demoIds 0 "1. e4 (1. d4 d5").1 2).isMainLine = false ∧
    (getN (parsePgnToTree demoApi demoIds 0 "1. e4 (1. d4 d5").1 2).children = [] := by
  decide

/-- C4: a token that is illegal in the current position (`Zz9` here) is
silently discarded, contributes no node, and does not abort parsing:
`"1. e4 e5 2. Zz9 Nf3"` yields the unbranching chain
root → e4 → e5 → Nf3, with `Nf3` a child of the `e5` node. -/
theorem malformed_token_C4 :
    (parsePgnToTree demoApi demoIds 0 "1. e4 e5 2. Zz9 Nf3").1.length = 4 ∧
    (getN (parsePgnToTree demoApi demoIds 0 "1. e4 e5 2. Zz9 Nf3").1 0).children = [1] ∧
    (getN (parsePgnToTree demoApi demoIds 0 "1. e4 e5 2. Zz9 Nf3").1 1).san = "e4" ∧
    (getN (parsePgnToTree demoApi demoIds 0 "1. e4 e5 2. Zz9 Nf3").1 1).children = [2] ∧
    (getN (parsePgnToTree demoApi demoIds 0 "1. e4 e5 2. Zz9 Nf3").1 2).san = "e5" ∧
    (getN (parsePgnToTree demoApi demoIds 0 "1. e4 e5 2. Zz9 Nf3").1 2).children = [3] ∧
    (getN (parsePgnToTree demoApi demoIds 0 "1. e4 e5 2. Zz9 Nf3").1 3).san = "Nf3" ∧
    (getN (parsePgnToTree demoApi demoIds 0 "1. e4 e5 2. Zz9 Nf3").1 3).parent = some 2 ∧
    (getN (parsePgnToTree demoApi demoIds 0 "1. e4 e5 2. Zz9 Nf3").1 3).children = [] ∧
    (getN (parsePgnToTree demoApi demoIds 0 "1. e4 e5 2. Zz9 Nf3").1 0).san ≠ "Zz9" ∧
    (getN (parsePgnToTree demoApi demoIds 0 "1. e4 e5 2. Zz9 Nf3").1 1).san ≠ "Zz9" ∧
    (getN (parsePgnToTree demoApi demoIds 0 "1. e4 e5 2. Zz9 Nf3").1 2).san ≠ "Zz9" ∧
    (getN (parsePgnToTree demoApi demoIds 0 "1. e4 e5 2. Zz9 Nf3").1 3).san ≠ "Zz9" := by
  decide

/-- C9: for every study and every edit emitted by the editor,
`updateStudy` changes only the name, PGN text and preferred color and
refreshes `updatedAt`, leaving the identity and `createdAt` unchanged;
`handleUpdateStudy` applies exactly this to the matching studies and
leaves all others untouched. -/
theorem update_study_C9 (studies : List Study) (s0 : Study) (name pgn color : String)
    (now : Nat) :
    updateStudy s0 (studyPatchOf (editedStudy s0 name pgn color)) now =
      { id := s0.id, name := name, pgn := pgn, defaultColor := color,
        createdAt := s0.createdAt, updatedAt := now } ∧
    handleUpdateStudy studies (editedStudy s0 name pgn color) now =
      studies.map fun s =>
        if s.id = s0.id then
          { id := s0.id, name := name, pgn := pgn, defaultColor := color,
            createdAt := s0.createdAt, updatedAt := now }
        else s :=
  ⟨rfl, rfl⟩

/-- C10: `tokenize` is total on every input string; every returned
token is `"("`, `")"`, or a non-empty token containing no space and no
parenthesis character; and concatenating the returned tokens in order
equals the input string with all space characters removed. -/
theorem tokenize_C10 (s : String) :
    (∀ t ∈ tokenize s,
      t = "(" ∨ t = ")" ∨ (t ≠ "" ∧ ∀ c ∈ t.toList, c ≠ ' ' ∧ c ≠ '(' ∧ c ≠ ')')) ∧
    String.join (tokenize s) = String.mk (s.toList.filter fun c => c ≠ ' ') := by
  constructor
  · intro t ht
    unfold tokenize at ht
    rcases List.mem_map.mp ht with ⟨u, hu, rfl⟩
    rcases tokAux_mem s.toList [] (by simp) u hu with h | h | ⟨hne, hall⟩
    · subst h; left; rfl
    · subst h; right; left; rfl
    · right; right
      refine ⟨?_, ?_⟩
      · intro hcontra
        apply hne
        have h2 := congrArg String.toList hcontra
        simpa using h2
      · intro c hc
        exact hall c hc
  · unfold tokenize
    rw [join_map_mk, tokAux_flat]
    simp

/-- C10 witness: the tokenizer property at a concrete raw string (with
adjacent parens and no pre-cleaning). -/
theorem tokenize_C10_witness :
    (∀ t ∈ tokenize "e4 (e5) Nf3x", t = "(" ∨ t = ")" ∨
      (t ≠ "" ∧ ∀ c ∈ t.toList, c ≠ ' ' ∧ c ≠ '(' ∧ c ≠ ')')) ∧
    String.join (tokenize "e4 (e5) Nf3x") =
      String.mk ("e4 (e5) Nf3x".toList.filter fun c => c ≠ ' ') :=
  tokenize_C10 "e4 (e5) Nf3x"

/-- C2: for every tree produced by the parser (over any evaluator and
any id stream that never yields the falsy empty string) and every
completed set, `findNextUnplayedLine` returns exactly the first line,
in the line-enumeration order of `getAllLines` (one line per leaf in
`getLeafNodes` depth-first order), whose terminal leaf identity is not
in the completed set — the sentinel `none` when every leaf is
completed, including the degenerate root-only tree whose single leaf
carries no move and is immediately exhausted. -/
theorem find_next_unplayed_C2 (api : ChessApi) (ids : Nat → String) (k : Nat) (pgn : String)
    (completed : List String) (hids : ∀ n, ids n ≠ "") :
    findNextUnplayedLine (parsePgnToTree api ids k pgn).1 completed =
      specNextUnplayedLine (parsePgnToTree api ids k pgn).1 completed := by
  have inv := parse_inv api ids k pgn
  have hid : ∀ i, 0 < i → i < (parsePgnToTree api ids k pgn).1.length →
      (getN (parsePgnToTree api ids k pgn).1 i).id ≠ "" := by
    intro i h1 h2
    rw [parse_ids api ids k pgn i h1 h2]
    exact hids _
  unfold findNextUnplayedLine specNextUnplayedLine getAllLines
  exact fnulGo_eq_find inv hid completed (getLeafNodes (parsePgnToTree api ids k pgn).1)
    (getLeafNodes_lt inv)

/-- C2 witness: on the concrete two-line tree the selector returns the
first (main) line for the empty completed set; with both leaf ids
completed it returns the sentinel; and on the degenerate zero-move tree
it returns the sentinel even for the empty completed set. -/
theorem find_next_unplayed_C2_witness :
    findNextUnplayedLine (parsePgnToTree demoApi demoIds 0 "1. e4 (1. d4 d5) e5").1 [] =
      specNextUnplayedLine (parsePgnToTree demoApi demoIds 0 "1. e4 (1. d4 d5) e5").1 [] ∧
    findNextUnplayedLine (parsePgnToTree demoApi demoIds 0 "1. e4 (1. d4 d5) e5").1 [] =
      some [1, 4] ∧
    findNextUnplayedLine (parsePgnToTree demoApi demoIds 0 "1. e4 (1. d4 d5) e5").1
      ["aaaa", "aaa"] =
      specNextUnplayedLine (parsePgnToTree demoApi demoIds 0 "1. e4 (1. d4 d5) e5").1
        ["aaaa", "aaa"] ∧
    findNextUnplayedLine (parsePgnToTree demoApi demoIds 0 "1. e4 (1. d4 d5) e5").1
      ["aaaa", "aaa"] = none ∧
    findNextUnplayedLine (parsePgnToTree demoApi demoIds 0 "").1 [] = none :=
  ⟨find_next_unplayed_C2 demoApi demoIds 0 "1. e4 (1. d4 d5) e5" [] demoIds_ne_empty,
   by decide,
   find_next_unplayed_C2 demoApi demoIds 0 "1. e4 (1. d4 d5) e5" ["aaaa", "aaa"] demoIds_ne_empty,
   by decide,
   by decide⟩

/-- C5: for every node of a tree produced by `parsePgnToTree`,
`getPathToNode` returns a sequence that starts with the root, ends with
the node itself, and has length the node's depth plus one; re-applying
each node's move in path order from the starting position reproduces
the node's position; and every non-root node's position is the result
of applying its move to its parent's position. -/
theorem path_reconstruction_C5 (api : ChessApi) (ids : Nat → String) (k : Nat) (pgn : String)
    (i : Nat) (hi : i < (parsePgnToTree api ids k pgn).1.length) :
    (getPathToNode (parsePgnToTree api ids k pgn).1 i).head? = some 0 ∧
    (getPathToNode (parsePgnToTree api ids k pgn).1 i).getLast? = some i ∧
    (getPathToNode (parsePgnToTree api ids k pgn).1 i).length =
      depthOf (parsePgnToTree api ids k pgn).1 i + 1 ∧
    replayPath api (parsePgnToTree api ids k pgn).1
        (getPathToNode (parsePgnToTree api ids k pgn).1 i) =
      some ((getN (parsePgnToTree api ids k pgn).1 i).fen) ∧
    (0 < i → ∃ p m, (getN (parsePgnToTree api ids k pgn).1 i).parent = some p ∧
      (getN (parsePgnToTree api ids k pgn).1 i).move = some m ∧
      api.moveObj ((getN (parsePgnToTree api ids k pgn).1 p).fen) m =
        some ((getN (parsePgnToTree api ids k pgn).1 i).fen)) := by
  have inv := parse_inv api ids k pgn
  have h := pathToAux_spec inv i hi (parsePgnToTree api ids k pgn).1.length hi
  refine ⟨h.1, h.2.1, h.2.2.1, h.2.2.2, ?_⟩
  intro h0
  obtain ⟨p, m, hp, _, hm, hobj⟩ := inv.node i h0 hi
  exact ⟨p, m, hp, hm, hobj⟩

/-- C5 witness: the `d5` node (index 3) of the concrete tree — its
path is root, d4, d5; its depth is 2; replaying reproduces its FEN. -/
theorem path_reconstruction_C5_witness :
    3 < (parsePgnToTree demoApi demoIds 0 "1. e4 (1. d4 d5) e5").1.length ∧
    ((getPathToNode (parsePgnToTree demoApi demoIds 0 "1. e4 (1. d4 d5) e5").1 3).head? =
        some 0 ∧
      (getPathToNode (parsePgnToTree demoApi demoIds 0 "1. e4 (1. d4 d5) e5").1 3).getLast? =
        some 3 ∧
      (getPathToNode (parsePgnToTree demoApi demoIds 0 "1. e4 (1. d4 d5) e5").1 3).length =
        depthOf (parsePgnToTree demoApi demoIds 0 "1. e4 (1. d4 d5) e5").1 3 + 1 ∧
      replayPath demoApi (parsePgnToTree demoApi demoIds 0 "1. e4 (1. d4 d5) e5").1
          (getPathToNode (parsePgnToTree demoApi demoIds 0 "1. e4 (1. d4 d5) e5").1 3) =
        some ((getN (parsePgnToTree demoApi demoIds 0 "1. e4 (1. d4 d5) e5").1 3).fen) ∧
      (0 < 3 → ∃ p m,
        (getN (parsePgnToTree demoApi demoIds 0 "1. e4 (1. d4 d5) e5").1 3).parent = some p ∧
        (getN (parsePgnToTree demoApi demoIds 0 "1. e4 (1. d4 d5) e5").1 3).move = some m ∧
        demoApi.moveObj
            ((getN (parsePgnToTree demoApi demoIds 0 "1. e4 (1. d4 d5) e5").1 p).fen) m =
          some ((getN (parsePgnToTree demoApi demoIds 0 "1. e4 (1. d4 d5) e5").1 3).fen))) :=
  ⟨by decide, path_reconstruction_C5 demoApi demoIds 0 "1. e4 (1. d4 d5) e5" 3 (by decide)⟩

/-- C6 counterexample: parsing the same PGN text twice does NOT give
trees whose node identities all differ — the two roots share the fixed
identity `"root"`. -/
theorem reparse_C6_cex :
    (getN (parsePgnToTree demoApi demoIds 0 "1. e4").1 0).id =
      (getN (parsePgnToTree demoApi demoIds
        (parsePgnToTree demoApi demoIds 0 "1. e4").2 "1. e4").1 0).id ∧
    (getN (parsePgnToTree demoApi demoIds 0 "1. e4").1 0).id = "root" := by
  decide

/-- C6 amended: parsing identical PGN text twice (the second parse
drawing the id stream where the first left off) yields structurally
isomorphic trees — same shape, notations and position encodings with
identities forgotten — and, provided the id generator never repeats a
value and never produces the reserved root id, node identities are
unique within each tree and the NON-ROOT identities of the two trees
are disjoint; the synthetic roots, however, always share the fixed
identity `"root"`. -/
theorem reparse_C6_amended (api : ChessApi) (ids : Nat → String) (k : Nat) (pgn : String)
    (hinj : Function.Injective ids) (hroot : ∀ n, ids n ≠ "root") :
    stripIds (parsePgnToTree api ids k pgn).1 =
      stripIds (parsePgnToTree api ids (parsePgnToTree api ids k pgn).2 pgn).1 ∧
    (getN (parsePgnToTree api ids k pgn).1 0).id = "root" ∧
    (getN (parsePgnToTree api ids (parsePgnToTree api ids k pgn).2 pgn).1 0).id = "root" ∧
    (∀ i j, i < (parsePgnToTree api ids k pgn).1.length →
      j < (parsePgnToTree api ids k pgn).1.length → i ≠ j →
      (getN (parsePgnToTree api ids k pgn).1 i).id ≠
        (getN (parsePgnToTree api ids k pgn).1 j).id) ∧
    (∀ i j, i < (parsePgnToTree api ids (parsePgnToTree api ids k pgn).2 pgn).1.length →
      j < (parsePgnToTree api ids (parsePgnToTree api ids k pgn).2 pgn).1.length → i ≠ j →
      (getN (parsePgnToTree api ids (parsePgnToTree api ids k pgn).2 pgn).1 i).id ≠
        (getN (parsePgnToTree api ids (parsePgnToTree api ids k pgn).2 pgn).1 j).id) ∧
    (∀ i j, 0 < i → i < (parsePgnToTree api ids k pgn).1.length →
      0 < j → j < (parsePgnToTree api ids (parsePgnToTree api ids k pgn).2 pgn).1.length →
      (getN (parsePgnToTree api ids k pgn).1 i).id ≠
        (getN (parsePgnToTree api ids (parsePgnToTree api ids k pgn).2 pgn).1 j).id) := by
  have inv1 := parse_inv api ids k pgn
  have inv2 := parse_inv api ids (parsePgnToTree api ids k pgn).2 pgn
  have hk1 := parse_k api ids k pgn
  have hshape := parse_shape api ids ids k (parsePgnToTree api ids k pgn).2 pgn
  have hlen : (parsePgnToTree api ids k pgn).1.length =
      (parsePgnToTree api ids (parsePgnToTree api ids k pgn).2 pgn).1.length :=
    stripIds_length hshape
  refine ⟨hshape, inv1.root_id, inv2.root_id, ?_, ?_, ?_⟩
  · intro i j hi hj hne
    rcases Nat.eq_zero_or_pos i with hi0 | hi0
    · subst hi0
      rcases Nat.eq_zero_or_pos j with hj0 | hj0
      · omega
      · rw [inv1.root_id, parse_ids api ids k pgn j hj0 hj]
        intro h
        exact hroot _ h.symm
    · rcases Nat.eq_zero_or_pos j with hj0 | hj0
      · subst hj0
        rw [inv1.root_id, parse_ids api ids k pgn i hi0 hi]
        exact hroot _
      · rw [parse_ids api ids k pgn i hi0 hi, parse_ids api ids k pgn j hj0 hj]
        intro h
        have := hinj h
        omega
  · intro i j hi hj hne
    rcases Nat.eq_zero_or_pos i with hi0 | hi0
    · subst hi0
      rcases Nat.eq_zero_or_pos j with hj0 | hj0
      · omega
      · rw [inv2.root_id, parse_ids api ids (parsePgnToTree api ids k pgn).2 pgn j hj0 hj]
        intro h
        exact hroot _ h.symm
    · rcases Nat.eq_zero_or_pos j with hj0 | hj0
      · subst hj0
        rw [inv2.root_id, parse_ids api ids (parsePgnToTree api ids k pgn).2 pgn i hi0 hi]
        exact hroot _
      · rw [parse_ids api ids (parsePgnToTree api ids k pgn).2 pgn i hi0 hi,
          parse_ids api ids (parsePgnToTree api ids k pgn).2 pgn j hj0 hj]
        intro h
        have := hinj h
        omega
  · intro i j hi0 hi hj0 hj
    rw [parse_ids api ids k pgn i hi0 hi,
      parse_ids api ids (parsePgnToTree api ids k pgn).2 pgn j hj0 hj]
    intro h
    have heq := hinj h
    have hp := inv1.len_pos
    rw [hk1] at heq
    omega

/-- C6 witness: the amended re-parse property at the concrete input
`"1. e4"` with the injective demo id stream. -/
theorem reparse_C6_witness :
    stripIds (parsePgnToTree demoApi demoIds 0 "1. e4").1 =
      stripIds (parsePgnToTree demoApi demoIds
        (parsePgnToTree demoApi demoIds 0 "1. e4").2 "1. e4").1 ∧
    (getN (parsePgnToTree demoApi demoIds 0 "1. e4").1 0).id = "root" ∧
    (getN (parsePgnToTree demoApi demoIds
      (parsePgnToTree demoApi demoIds 0 "1. e4").2 "1. e4").1 0).id = "root" ∧
    (∀ i j, i < (parsePgnToTree demoApi demoIds 0 "1. e4").1.length →
      j < (parsePgnToTree demoApi demoIds 0 "1. e4").1.length → i ≠ j →
      (getN (parsePgnToTree demoApi demoIds 0 "1. e4").1 i).id ≠
        (getN (parsePgnToTree demoApi demoIds 0 "1. e4").1 j).id) ∧
    (∀ i j, i < (parsePgnToTree demoApi demoIds
        (parsePgnToTree demoApi demoIds 0 "1. e4").2 "1. e4").1.length →
      j < (parsePgnToTree demoApi demoIds
        (parsePgnToTree demoApi demoIds 0 "1. e4").2 "1. e4").1.length → i ≠ j →
      (getN (parsePgnToTree demoApi demoIds
        (parsePgnToTree demoApi demoIds 0 "1. e4").2 "1. e4").1 i).id ≠
        (getN (parsePgnToTree demoApi demoIds
          (parsePgnToTree demoApi demoIds 0 "1. e4").2 "1. e4").1 j).id) ∧
    (∀ i j, 0 < i → i < (parsePgnToTree demoApi demoIds 0 "1. e4").1.length →
      0 < j → j < (parsePgnToTree demoApi demoIds
        (parsePgnToTree demoApi demoIds 0 "1. e4").2 "1. e4").1.length →
      (getN (parsePgnToTree demoApi demoIds 0 "1. e4").1 i).id ≠
        (getN (parsePgnToTree demoApi demoIds
          (parsePgnToTree demoApi demoIds 0 "1. e4").2 "1. e4").1 j).id) :=
  reparse_C6_amended demoApi demoIds 0 "1. e4" demoIds_inj demoIds_ne_root

/-- Out-of-range arena reads give the default node. -/
theorem getN_oob {a : Arena} {i : Nat} (h : a.length ≤ i) : getN a i = nodeDefault := by
  simp [getN, List.getElem?_eq_none h]

/-- C7: in drill mode, a legal move that matches neither the current
target node nor any other child of the current tree position (by
long-form notation) sets feedback to "wrong" and reverts the move:
the board returns to the pre-attempt position and the target index,
completed set, current node, pending action and mode are all
unchanged — the session keeps awaiting a user move. -/
theorem wrong_move_C7 (api : ChessApi) (st : AppState) (orig dest : String) (m : MoveD)
    (f2 : String) (hmode : st.mode = .drill)
    (hmv : api.moveCoord st.game.cur orig dest = some (m, f2))
    (hmiss : ∀ t, st.targetLine[st.targetIdx]? = some t → lanHit st.arena t m.lan = false)
    (hfind : (expectedMoves st).find? (fun c => lanHit st.arena c m.lan) = none) :
    handleMove api st orig dest = { st with feedback := some .wrong } := by
  unfold handleMove
  rw [hmode, hmv]
  simp only [hfind]
  cases ht : st.targetLine[st.targetIdx]? with
  | none => rfl
  | some t =>
    have hl := hmiss t ht
    simp only [hl]
    rfl

/-- C8: in drill mode, a legal move matching (by long-form notation) a
child of the current tree position other than the target node sets
feedback to the off-line-variation value, moves the current node to
that child, and adds to the completed set exactly the single leaf
reached from the matching child by always following the first child
(`children[0]`); line selection is then re-invoked. -/
theorem off_line_variation_C8 (api : ChessApi) (st : AppState) (orig dest : String) (m : MoveD)
    (f2 : String) (mn : Nat) (hmode : st.mode = .drill)
    (hmv : api.moveCoord st.game.cur orig dest = some (m, f2))
    (hmiss : ∀ t, st.targetLine[st.targetIdx]? = some t → lanHit st.arena t m.lan = false)
    (hfind : (expectedMoves st).find? (fun c => lanHit st.arena c m.lan) = some mn)
    (inv : ArenaInv api st.arena) :
    handleMove api st orig dest =
      { st with feedback := some .variation
                currentNode := some mn
                game := ⟨f2, st.game.cur :: st.game.hist⟩
                lastMove := [orig, dest]
                completedLines := st.completedLines ++
                  [(getN st.arena (chainLeafIdx st.arena st.arena.length mn)).id]
                pending := some .nextLine } ∧
    (getN st.arena (chainLeafIdx st.arena st.arena.length mn)).children = [] := by
  have hmem := List.mem_of_find?_eq_some hfind
  have hmn : mn < st.arena.length := by
    unfold expectedMoves at hmem
    cases hcn : st.currentNode with
    | none =>
      rw [hcn] at hmem
      exact (inv.childOk 0 inv.len_pos mn hmem).2
    | some x =>
      rw [hcn] at hmem
      dsimp only at hmem
      by_cases hx : x < st.arena.length
      · exact (inv.childOk x hx mn hmem).2
      · rw [@getN_oob st.arena x (by omega)] at hmem
        simp [nodeDefault] at hmem
  have hmvc := markVariation_eq inv st.arena.length mn st.completedLines hmn (by omega)
  refine ⟨?_, hmvc.2⟩
  unfold handleMove
  rw [hmode, hmv]
  simp only [hfind]
  cases ht : st.targetLine[st.targetIdx]? with
  | none =>
    rw [hmvc.1]
  | some t =>
    have hl := hmiss t ht
    simp only [hl]
    rw [hmvc.1]
    rfl

/-- A concrete drill-session state over the two-line demo tree, at the
start of the main line `e4 e5`, awaiting the user's first move. -/
def drillState : AppState :=
  { mode := .drill
    arena := (parsePgnToTree demoApi demoIds 0 "1. e4 (1. d4 d5) e5").1
    currentNode := none
    completedLines := []
    targetLine := [1, 4]
    targetIdx := 0
    game := ⟨fen0, []⟩
    feedback := none
    lastMove := []
    pending := none }

/-- C7 witness: playing the legal but unrecorded `a3` from the start
position only sets feedback "wrong"; board and progress revert. -/
theorem wrong_move_C7_witness :
    handleMove demoApi drillState "a2" "a3" = { drillState with feedback := some .wrong } :=
  wrong_move_C7 demoApi drillState "a2" "a3" mvA3 fenA3 rfl (by decide)
    (by
      intro t ht
      have h1 : drillState.targetLine[drillState.targetIdx]? = some 1 := rfl
      rw [h1] at ht
      cases ht
      decide)
    (by decide)

/-- C8 witness: playing the recorded variation `d4` instead of the
target `e4` marks the single leaf of the `d4 → d5` first-child chain
(node 3) completed and schedules line re-selection. -/
theorem off_line_variation_C8_witness :
    (handleMove demoApi drillState "d2" "d4" =
      { drillState with feedback := some .variation
                        currentNode := some 2
                        game := ⟨fenD4, [fen0]⟩
                        lastMove := ["d2", "d4"]
                        completedLines := [] ++
                          [(getN drillState.arena
                            (chainLeafIdx drillState.arena drillState.arena.length 2)).id]
                        pending := some .nextLine } ∧
    (getN drillState.arena (chainLeafIdx drillState.arena drillState.arena.length 2)).children =
      []) :=
  off_line_variation_C8 demoApi drillState "d2" "d4" mvD4 fenD4 2 rfl (by decide)
    (by
      intro t ht
      have h1 : drillState.targetLine[drillState.targetIdx]? = some 1 := rfl
      rw [h1] at ht
      cases ht
      decide)
    (by decide)
    (parse_inv demoApi demoIds 0 "1. e4 (1. d4 d5) e5")
